import Mathlib

/-!
Shallow embedding of the acquisition pipeline of the `c-rust-program-pairs`
corpus builder, together with proofs about the claims of its specification.

The embedding follows the Rust sources:

* `src/corpus/utils/repositories.rs` — repository URL parsing and the
  memoized default-branch resolver;
* `src/corpus/utils.rs` — directory extraction (`copy_files_from_directory`);
* `src/corpus/downloader.rs` — the repository-cache-aware download engine
  and the batch orchestrator;
* `src/corpus/parser.rs` and `src/parser/project.rs` — metadata
  normalization (`parse_individual`, `parse_project`).

Rust strings are embedded as `List Char`; filesystem, git and network side
effects are embedded as explicit state passing plus oracles describing the
outcome of each external operation, and every performed clone or API request
is recorded so that claims counting such operations can be stated.
A Rust `panic` (index out of bounds, `expect` failure) is a distinguished
outcome `RResult.panicked`, kept separate from returning an `Err` value.
-/

namespace CRust

/-- Rust string slices are embedded as lists of characters. -/
abbrev RStr := List Char

/-- Coerces a Lean string literal into the embedding of Rust strings. -/
def str (s : String) : RStr := s.data

/-- Embeds the outcome of a Rust expression of type `Result<A, E>`:
either `Ok`, or `Err`, or a panic (which in Rust unwinds and is not a
`Result` value at all). -/
inductive RResult (ε α : Type) where
  | ok : α → RResult ε α
  | err : ε → RResult ε α
  | panicked : RResult ε α
deriving DecidableEq, Repr

/-- Does the haystack start with the needle?  Model of matching a pattern
at the front of a Rust `&str`. -/
def beginsWith : RStr → RStr → Bool
  | [], _ => true
  | _ :: _, [] => false
  | a :: as, b :: bs => a = b && beginsWith as bs

/-- Model of Rust `str::contains` for a literal pattern: does the needle
occur contiguously anywhere in the haystack? -/
def containsSub (needle : RStr) : RStr → Bool
  | [] => beginsWith needle []
  | c :: t => beginsWith needle (c :: t) || containsSub needle t

/-- Model of Rust `str::trim_end_matches` with a single-character pattern:
repeatedly removes the character from the end. -/
def trimEndMatches (c : Char) (l : RStr) : RStr :=
  (l.reverse.dropWhile (fun x => x = c)).reverse

/-- Model of Rust `str::split` on a single-character separator: always
yields at least one (possibly empty) piece. -/
def splitOnChar (c : Char) : RStr → List RStr
  | [] => [[]]
  | x :: xs =>
    if x = c then [] :: splitOnChar c xs
    else
      match splitOnChar c xs with
      | [] => [[x]]
      | h :: t => (x :: h) :: t

/-- Model of Rust `str::strip_suffix(suf).unwrap_or(s)`: removes the suffix
when present, otherwise returns the string unchanged. -/
def stripSuffix (suf l : RStr) : RStr :=
  if beginsWith suf.reverse l.reverse then l.take (l.length - suf.length) else l

/-- Model of Rust `str::replace` where both the pattern and the replacement
are single characters. -/
def replaceChar (a b : Char) (l : RStr) : RStr :=
  l.map (fun c => if c = a then b else c)

/-- Joins path segments with the given character; `joinWith '/' segs` is the
string form of a relative path whose components are `segs`. -/
def joinWith (c : Char) : List RStr → RStr
  | [] => []
  | [s] => s
  | s :: t :: rest => s ++ c :: joinWith c (t :: rest)

/-! ## Canonical data model (`src/corpus/schema.rs`) -/

/-- The language in which a program is written (`enum Language`). -/
inductive Language where
  | C
  | Rust
deriving DecidableEq, Repr

/-- Converts the language to the string used in cache sub-paths
(`Language::to_str`). -/
def Language.toStr : Language → String
  | .C => "c"
  | .Rust => "rust"

/-- The feature relationship of the Rust program to its C counterpart
(`enum Features` of the canonical schema). -/
inductive Features where
  | Subset
  | Equivalent
  | Superset
  | Overlapping
deriving DecidableEq, Repr

/-- One C or Rust program of a pair (`struct Program`). -/
structure Program where
  language : Language
  documentation_url : String
  repository_url : String
  source_paths : List String
deriving DecidableEq, Repr

/-- One C-Rust program pair (`struct ProgramPair`). -/
structure ProgramPair where
  program_name : String
  program_description : String
  translation_tools : List String
  feature_relationship : Features
  c_program : Program
  rust_program : Program
deriving DecidableEq, Repr

/-- The normalized contents of one metadata file (`struct Metadata`). -/
structure Metadata where
  pairs : List ProgramPair
deriving DecidableEq, Repr

/-! ## Repository URL parsing and branch resolution
(`src/corpus/utils/repositories.rs`) -/

/-- Embedding of `get_repository_name`: trim trailing `/`, split on `/`,
take the last segment (the `.expect` on an empty split is a panic), and
strip a trailing `.git`. -/
def get_repository_name (url : RStr) : RResult RStr RStr :=
  match (splitOnChar '/' (trimEndMatches '/' url)).getLast? with
  | some lastSegment => .ok (stripSuffix (str ".git") lastSegment)
  | none => .panicked

/-- Embedding of `get_repository_owner`: reject URLs not containing
`"github"`, then index the second-to-last `/`-segment.  When the split has
fewer than two segments, `url_parts[url_parts.len() - 2]` panics
(subtract-with-overflow / index out of bounds), which the embedding records
as `RResult.panicked`. -/
def get_repository_owner (url : RStr) : RResult RStr RStr :=
  if containsSub (str "github") url then
    let url_parts := splitOnChar '/' (trimEndMatches '/' url)
    if h : 2 ≤ url_parts.length then
      .ok (url_parts.get ⟨url_parts.length - 2, by omega⟩)
    else
      .panicked
  else
    .err (str "Invalid URL")

/-- The process-wide branch cache, embedded as an association list from
`(owner, repository)` to branch name; insertion at the head models
`HashMap::insert` for lookup purposes. -/
abbrev BranchCache := List ((RStr × RStr) × RStr)

/-- Lookup in the branch cache (`HashMap::get`). -/
def findBranch (key : RStr × RStr) : BranchCache → Option RStr
  | [] => none
  | (k, v) :: t => if k = key then some v else findBranch key t

/-- The observable outcome of one call to the default-branch resolver:
the returned result, the cache after the call, the list of outbound API
requests issued during the call (as `(owner, repository)` keys), and
whether the cache was consulted (`HashMap::get` reached). -/
structure BranchCallOut where
  result : RResult RStr RStr
  cache : BranchCache
  requests : List (RStr × RStr)
  cacheChecked : Bool
deriving DecidableEq, Repr

/-- Embedding of `get_repository_default_branch`.  The GitHub API transport
is an oracle `api : owner → repository → Option branch`; `none` models any
request failure (network error, non-2xx, malformed body).  Mirrors the
source: reject non-`github` URLs, compute owner and name, consult the
cache, and only on a miss issue one API request and cache a successful
response. -/
def get_repository_default_branch (api : RStr → RStr → Option RStr)
    (cache : BranchCache) (url : RStr) : BranchCallOut :=
  if containsSub (str "github") url then
    match get_repository_owner url with
    | .ok owner =>
      match get_repository_name url with
      | .ok repository =>
        let key := (owner, repository)
        match findBranch key cache with
        | some branch => ⟨.ok branch, cache, [], true⟩
        | none =>
          match api owner repository with
          | some branch => ⟨.ok branch, (key, branch) :: cache, [key], true⟩
          | none => ⟨.err (str "ApiError"), cache, [key], true⟩
      | .err e => ⟨.err e, cache, [], false⟩
      | .panicked => ⟨.panicked, cache, [], false⟩
    | .err e => ⟨.err e, cache, [], false⟩
    | .panicked => ⟨.panicked, cache, [], false⟩
  else
    ⟨.err (str "Invalid URL"), cache, [], false⟩

/-! ## File extraction (`src/corpus/utils.rs`, `copy_files_from_directory`)

A file found by the `WalkDir` traversal is embedded as its path relative to
the walked directory: a nonempty list of path segments ending in the file
name.  Directory entries are skipped by the source (`path.is_file()`), so
the embedding takes the list of contained files directly. -/

/-- Embedding of Rust `Path::extension` on a file name: the portion after
the final `.`; `none` when there is no `.`, or when the name begins with
`.` and has no other `.`. -/
def extensionOf (name : RStr) : Option RStr :=
  let parts := splitOnChar '.' name
  if parts.length ≤ 1 then none
  else if parts.headI = [] ∧ parts.length = 2 then none
  else parts.getLast?

/-- The allowed-extension test of `copy_files_from_directory`:
`matches!(extension, "c" | "h" | "rs")`. -/
def isAllowedExtension (e : RStr) : Bool :=
  e = str "c" ∨ e = str "h" ∨ e = str "rs"

/-- The destination file name of a copied file: the relative path rendered
with the platform separator `/`, with every separator replaced by `-`
(the source's `relative_path.to_str().replace(MAIN_SEPARATOR_STR, "-")`). -/
def destFileName (relPath : List RStr) : RStr :=
  replaceChar '/' '-' (joinWith '/' relPath)

/-- Embedding of `copy_files_from_directory`: for every contained file whose
extension is `c`, `h`, or `rs`, one copy is performed; the returned list
pairs each copied file's relative path with its destination file name. -/
def copy_files_from_directory (files : List (List RStr)) :
    List (List RStr × RStr) :=
  files.filterMap (fun p =>
    match p.getLast? with
    | none => none
    | some fileName =>
      match extensionOf fileName with
      | none => none
      | some e =>
        if isAllowedExtension e then some (p, destFileName p) else none)

/-! ## Downloader (`src/corpus/downloader.rs`)

The git and filesystem effects of `download_files` are embedded as follows:
`Repository::open` succeeds exactly on the paths listed in the state
(`openable`), a path being a list of components; `RepoBuilder::clone`
succeeds according to the oracle `cloneOk` and, when it succeeds, makes the
target path openable.  Every attempted clone is recorded as a `CloneOp`. -/

/-- One clone operation performed by the downloader: the remote URL, the
destination path, and the configured history depth
(`fetch_options.depth(1)`). -/
structure CloneOp where
  url : RStr
  path : List RStr
  depth : Nat
deriving DecidableEq, Repr

/-- The cache path `repository_clones/<language>/<repository_name>` used by
`download_files`. -/
def clonePath (lang : Language) (name : RStr) : List RStr :=
  [str "repository_clones", str lang.toStr, name]

/-- The outcome of the repository-acquisition step of `download_files`:
the result (the working-tree path on success), the set of openable clone
paths after the call, and the clone operations performed. -/
structure AcquireOut where
  result : RResult RStr (List RStr)
  openable : List (List RStr)
  clones : List CloneOp
deriving DecidableEq, Repr

/-- Embedding of the repository-acquisition step of `download_files`
(lines 232–277): compute the cache path from the language and the
repository name, open the existing clone if present (performing no clone
operation and leaving the state unchanged), otherwise perform exactly one
shallow clone of depth 1 into that path. -/
def acquireRepository (openable : List (List RStr)) (cloneOk : RStr → Bool)
    (lang : Language) (url : RStr) : AcquireOut :=
  match get_repository_name url with
  | .ok name =>
    let path := clonePath lang name
    if path ∈ openable then ⟨.ok path, openable, []⟩
    else if cloneOk url then ⟨.ok path, path :: openable, [⟨url, path, 1⟩]⟩
    else ⟨.err (str "CloneRepository"), openable, [⟨url, path, 1⟩]⟩
  | .err e => ⟨.err e, openable, []⟩
  | .panicked => ⟨.panicked, openable, []⟩

/-- Embedding of `download_program_pair`: the C side is downloaded first and
its error is propagated with `?`, so a C-side failure returns before the
Rust side is attempted.  Directory creation is assumed to succeed; the
result of `download_files` for each side is the oracle `sideResult`.
Returns the overall result together with the list of sides attempted. -/
def download_program_pair (sideResult : Language → Except String Unit) :
    Except String Unit × List Language :=
  match sideResult .C with
  | .error e => (.error e, [.C])
  | .ok _ =>
    match sideResult .Rust with
    | .error e => (.error e, [.C, .Rust])
    | .ok _ => (.ok (), [.C, .Rust])

/-- Embedding of `download_metadata_file`: every pair of the metadata is
attempted; a pair's failure is printed and the loop continues.  Returns,
per pair in order, its name and the error reported for it (if any). -/
def download_metadata_file (dl : ProgramPair → Language → Except String Unit)
    (pairs : List ProgramPair) : List (String × Option String) :=
  pairs.map (fun p =>
    (p.program_name,
      match (download_program_pair (dl p)).1 with
      | .ok _ => none
      | .error e => some e))

/-- The recorded outcome for one metadata file of a batch: either its
per-pair processing record, or the parse failure reported for it. -/
inductive FileOutcome where
  | processed : List (String × Option String) → FileOutcome
  | parseFailed : String → FileOutcome
deriving DecidableEq, Repr

/-- Embedding of `download_from_metadata_directory`: each metadata file of
the directory is parsed; on success all its pairs are downloaded, on parse
failure the error is printed and the loop continues with the next file.
`parse` is the oracle giving each file's parse outcome and `dl` the oracle
giving each side-download outcome. -/
def download_from_metadata_directory
    (parseFile : String → Except String (List ProgramPair))
    (dl : String → ProgramPair → Language → Except String Unit)
    (files : List String) : List (String × FileOutcome) :=
  files.map (fun f =>
    (f,
      match parseFile f with
      | .ok pairs => .processed (download_metadata_file (dl f) pairs)
      | .error e => .parseFailed e))

/-! ## Metadata normalization (`src/corpus/parser.rs`)

The raw, pre-normalization metadata shapes are the types generated by
`typify` from the JSON schema (`import_types!`); their fields follow the
source's field accesses. -/

/-- The raw `feature_relationship` literal of a metadata file
(`enum FeatureRelationship`, generated from the schema). -/
inductive FeatureRelationship where
  | RustSubsetOfC
  | RustSupersetOfC
  | RustEquivalentToC
  | Overlapping
deriving DecidableEq, Repr

/-- Embedding of `map_feature_relationship`. -/
def map_feature_relationship : FeatureRelationship → Features
  | .RustSubsetOfC => .Subset
  | .RustSupersetOfC => .Superset
  | .RustEquivalentToC => .Equivalent
  | .Overlapping => .Overlapping

/-- One side of a raw individual pair: its documentation URL, repository
URL and source paths. -/
structure RawProgram where
  documentation_url : String
  repository_url : String
  source_paths : List String
deriving DecidableEq, Repr

/-- One entry of a raw Individual metadata document
(`IndividualProgramPair`). -/
structure IndividualProgramPair where
  program_name : String
  program_description : String
  translation_tools : List String
  feature_relationship : FeatureRelationship
  c_program : RawProgram
  rust_program : RawProgram
deriving DecidableEq, Repr

/-- One side of the shared block of a raw Project metadata document:
documentation URL and repository URL only. -/
structure ProjectInformationProgram where
  documentation_url : String
  repository_url : String
deriving DecidableEq, Repr

/-- The shared `projectInformation` block of a raw Project metadata
document (`ProjectPairsMetadataProjectInformation`). -/
structure ProjectPairsMetadataProjectInformation where
  translation_tools : List String
  feature_relationship : FeatureRelationship
  c_program : ProjectInformationProgram
  rust_program : ProjectInformationProgram
deriving DecidableEq, Repr

/-- One side of a raw Project entry: its source paths only. -/
structure ProjectProgram where
  source_paths : List String
deriving DecidableEq, Repr

/-- One lightweight entry of a raw Project metadata document
(`ProjectProgramPair`). -/
structure ProjectProgramPair where
  program_name : String
  program_description : String
  c_program : ProjectProgram
  rust_program : ProjectProgram
deriving DecidableEq, Repr

/-- Embedding of `parse_individual`: maps each raw entry directly to a
canonical `ProgramPair`. -/
def parse_individual (pairs : List IndividualProgramPair) : Metadata :=
  ⟨pairs.map (fun pair =>
    { program_name := pair.program_name
      program_description := pair.program_description
      translation_tools := pair.translation_tools
      feature_relationship := map_feature_relationship pair.feature_relationship
      c_program :=
        { language := .C
          documentation_url := pair.c_program.documentation_url
          repository_url := pair.c_program.repository_url
          source_paths := pair.c_program.source_paths }
      rust_program :=
        { language := .Rust
          documentation_url := pair.rust_program.documentation_url
          repository_url := pair.rust_program.repository_url
          source_paths := pair.rust_program.source_paths } })⟩

/-- Embedding of `parse_project`: each lightweight entry contributes its
name, description and per-side source paths; all other fields are copied
from the shared `project_information` block. -/
def parse_project (pairs : List ProjectProgramPair)
    (project_information : ProjectPairsMetadataProjectInformation) : Metadata :=
  ⟨pairs.map (fun pair =>
    { program_name := pair.program_name
      program_description := pair.program_description
      translation_tools := project_information.translation_tools
      feature_relationship :=
        map_feature_relationship project_information.feature_relationship
      c_program :=
        { language := .C
          documentation_url := project_information.c_program.documentation_url
          repository_url := project_information.c_program.repository_url
          source_paths := pair.c_program.source_paths }
      rust_program :=
        { language := .Rust
          documentation_url := project_information.rust_program.documentation_url
          repository_url := project_information.rust_program.repository_url
          source_paths := pair.rust_program.source_paths } })⟩

/-- A deserialized raw metadata document: the tagged union of the two raw
shapes (`enum CToRustTranslationSchema`). -/
inductive CToRustTranslationSchema where
  | individualPairs (pairs : List IndividualProgramPair)
  | projectPairs (pairs : List ProjectProgramPair)
      (project_information : ProjectPairsMetadataProjectInformation)
deriving DecidableEq, Repr

/-- Modelled from the spec: the JSON-schema file
`metadata/metadata.schema.json` consumed by `validate_metadata` is not under
`src/`.  Per the spec (§4.2), a document already deserialized into one of
the two raw shapes is schema-valid — unknown `featureRelationship` literals
are already ruled out by the typed deserialization — and in particular an
empty `pairs` list is valid. -/
def validate_metadata (_metadata : CToRustTranslationSchema) : Bool :=
  true

/-- The number of entries of the raw `pairs` list of a document. -/
def rawPairsLength : CToRustTranslationSchema → Nat
  | .individualPairs pairs => pairs.length
  | .projectPairs pairs _ => pairs.length

/-- Embedding of `corpus::parse` after deserialization: validate the raw
document, then normalize it according to its shape. -/
def parse (metadata : CToRustTranslationSchema) : Except String Metadata :=
  if validate_metadata metadata then
    match metadata with
    | .individualPairs pairs => .ok (parse_individual pairs)
    | .projectPairs pairs project_information =>
      .ok (parse_project pairs project_information)
  else
    .error "Failed to validate metadata"

/-! ## Decidability helper and concrete example data -/

instance {ε α : Type} [DecidableEq ε] [DecidableEq α] : DecidableEq (Except ε α) := fun a b =>
  match a, b with
  | .ok x, .ok y =>
    if h : x = y then .isTrue (by rw [h]) else .isFalse (fun hc => h (by cases hc; rfl))
  | .ok _, .error _ => .isFalse (fun hc => Except.noConfusion hc)
  | .error _, .ok _ => .isFalse (fun hc => Except.noConfusion hc)
  | .error x, .error y =>
    if h : x = y then .isTrue (by rw [h]) else .isFalse (fun hc => h (by cases hc; rfl))

/-- Concrete raw C program used by witnesses. -/
def exRawProgramC : RawProgram :=
  ⟨"https://docs.example/c", "https://github.com/ex/c-repo", ["src"]⟩

/-- Concrete raw Rust program used by witnesses. -/
def exRawProgramRust : RawProgram :=
  ⟨"https://docs.example/rust", "https://github.com/ex/rust-repo", ["src/main.rs"]⟩

/-- Concrete raw Individual entry used by witnesses. -/
def exIndividualPair : IndividualProgramPair :=
  ⟨"grep-pair", "a C grep and its Rust port", ["c2rust"], .RustEquivalentToC,
    exRawProgramC, exRawProgramRust⟩

/-- Concrete raw Project entry used by witnesses. -/
def exProjectEntry : ProjectProgramPair :=
  ⟨"coreutils-ls", "the ls utility", ⟨["src/ls.c"]⟩, ⟨["src/uu/ls"]⟩⟩

/-- Concrete shared Project block used by witnesses. -/
def exProjectInformation : ProjectPairsMetadataProjectInformation :=
  ⟨["manual"], .RustSubsetOfC,
    ⟨"https://docs.example/coreutils", "https://github.com/ex/coreutils"⟩,
    ⟨"https://docs.example/uutils", "https://github.com/ex/uutils"⟩⟩

/-- Concrete canonical pair used by counterexamples and witnesses. -/
def exProgramPair : ProgramPair :=
  ⟨"grep-pair", "a C grep and its Rust port", ["c2rust"], .Equivalent,
    ⟨.C, "https://docs.example/c", "https://github.com/ex/c-repo", ["src"]⟩,
    ⟨.Rust, "https://docs.example/rust", "https://github.com/ex/rust-repo", ["src/main.rs"]⟩⟩

/-! ## Supporting lemmas about the string primitives -/

theorem beginsWith_iff (n h : RStr) : beginsWith n h = true ↔ ∃ t, h = n ++ t := by
  induction n generalizing h with
  | nil =>
    simp [beginsWith]
  | cons a as ih =>
    cases h with
    | nil =>
      simp [beginsWith]
    | cons b bs =>
      simp only [beginsWith, Bool.and_eq_true, decide_eq_true_eq, ih]
      constructor
      · rintro ⟨rfl, t, rfl⟩
        exact ⟨t, rfl⟩
      · rintro ⟨t, heq⟩
        injection heq with h1 h2
        exact ⟨h1.symm, t, h2⟩

theorem containsSub_iff (n h : RStr) :
    containsSub n h = true ↔ ∃ pre post, h = pre ++ n ++ post := by
  induction h with
  | nil =>
    simp only [containsSub, beginsWith_iff]
    constructor
    · rintro ⟨t, ht⟩
      exact ⟨[], t, ht⟩
    · rintro ⟨pre, post, hp⟩
      rw [List.append_assoc] at hp
      rcases List.append_eq_nil.mp hp.symm with ⟨rfl, h2⟩
      exact ⟨post, h2.symm⟩
  | cons c t ih =>
    simp only [containsSub, Bool.or_eq_true, beginsWith_iff, ih]
    constructor
    · rintro (⟨s, hs⟩ | ⟨pre, post, hp⟩)
      · exact ⟨[], s, by simpa using hs⟩
      · exact ⟨c :: pre, post, by simp [hp]⟩
    · rintro ⟨pre, post, hp⟩
      cases pre with
      | nil =>
        exact Or.inl ⟨post, by simpa using hp⟩
      | cons p ps =>
        injection hp with h1 h2
        exact Or.inr ⟨ps, post, h2⟩

theorem splitOnChar_ne_nil (c : Char) (l : RStr) : splitOnChar c l ≠ [] := by
  induction l with
  | nil =>
    simp [splitOnChar]
  | cons x xs ih =>
    simp only [splitOnChar]
    split
    · simp
    · split
      · simp
      · simp

theorem get_repository_name_ok (url : RStr) :
    ∃ s, get_repository_name url = .ok s := by
  unfold get_repository_name
  cases hg : (splitOnChar '/' (trimEndMatches '/' url)).getLast? with
  | some lastSegment =>
    exact ⟨stripSuffix (str ".git") lastSegment, rfl⟩
  | none =>
    exact absurd (List.getLast?_eq_none_iff.mp hg)
      (splitOnChar_ne_nil '/' (trimEndMatches '/' url))

theorem containsSub_of_owner_ok {url owner : RStr}
    (h : get_repository_owner url = .ok owner) :
    containsSub (str "github") url = true := by
  cases hc : containsSub (str "github") url with
  | true => rfl
  | false =>
    unfold get_repository_owner at h
    rw [hc] at h
    simp at h

theorem owner_err_iff (url : RStr) :
    (∃ e, get_repository_owner url = .err e) ↔
      containsSub (str "github") url = false := by
  unfold get_repository_owner
  cases hc : containsSub (str "github") url with
  | true =>
    simp only [if_true]
    constructor
    · rintro ⟨e, he⟩
      split at he <;> simp_all
    · intro hfalse
      simp at hfalse
  | false =>
    simp

theorem replaceChar_append (a b : Char) (l m : RStr) :
    replaceChar a b (l ++ m) = replaceChar a b l ++ replaceChar a b m := by
  simp [replaceChar]

theorem replaceChar_of_not_mem {a : Char} (b : Char) {l : RStr} (h : a ∉ l) :
    replaceChar a b l = l := by
  induction l with
  | nil => rfl
  | cons x xs ih =>
    simp only [List.mem_cons, not_or] at h
    simp only [replaceChar, List.map_cons]
    rw [if_neg (fun hxa => h.1 hxa.symm)]
    have hxs := ih h.2
    simp only [replaceChar] at hxs
    rw [hxs]

theorem destFileName_eq_joinWith {p : List RStr} (h : ∀ s ∈ p, '/' ∉ s) :
    destFileName p = joinWith '-' p := by
  unfold destFileName
  induction p with
  | nil => rfl
  | cons s rest ih =>
    cases rest with
    | nil =>
      simp only [joinWith]
      exact replaceChar_of_not_mem '-' (h s (List.mem_cons_self s []))
    | cons t r =>
      simp only [joinWith, replaceChar_append]
      rw [replaceChar_of_not_mem '-' (h s (List.mem_cons_self s (t :: r)))]
      have hrest : ∀ x ∈ t :: r, '/' ∉ x := fun x hx => h x (List.mem_cons_of_mem s hx)
      rw [show replaceChar '/' '-' ('/' :: joinWith '/' (t :: r)) =
          '-' :: replaceChar '/' '-' (joinWith '/' (t :: r)) by simp [replaceChar]]
      rw [ih hrest]

theorem sep_code_inj {c : Char} :
    ∀ {s t u v : RStr}, c ∉ s → c ∉ t → s ++ c :: u = t ++ c :: v →
      s = t ∧ u = v := by
  intro s
  induction s with
  | nil =>
    intro t u v _ ht heq
    cases t with
    | nil =>
      injection heq with _ h2
      exact ⟨rfl, h2⟩
    | cons b ts =>
      injection heq with h1 _
      exact absurd (h1 ▸ List.mem_cons_self b ts) ht
  | cons a ss ih =>
    intro t u v hs ht heq
    cases t with
    | nil =>
      injection heq with h1 _
      exact absurd (h1.symm ▸ List.mem_cons_self a ss) hs
    | cons b ts =>
      injection heq with h1 h2
      simp only [List.mem_cons, not_or] at hs ht
      obtain ⟨hss, huv⟩ := ih hs.2 ht.2 h2
      exact ⟨by rw [h1, hss], huv⟩

theorem joinWith_injective {c : Char} :
    ∀ (p q : List RStr), p ≠ [] → q ≠ [] →
      (∀ s ∈ p, c ∉ s) → (∀ s ∈ q, c ∉ s) →
      joinWith c p = joinWith c q → p = q := by
  intro p
  induction p with
  | nil =>
    intro q hp
    exact absurd rfl hp
  | cons s rest ih =>
    intro q _ hq hpfree hqfree heq
    cases q with
    | nil => exact absurd rfl hq
    | cons t qr =>
      cases rest with
      | nil =>
        cases qr with
        | nil =>
          simp only [joinWith] at heq
          rw [heq]
        | cons t2 qr2 =>
          simp only [joinWith] at heq
          have hc : c ∈ t ++ c :: joinWith c (t2 :: qr2) :=
            List.mem_append_right t (List.mem_cons_self c _)
          rw [← heq] at hc
          exact absurd hc (hpfree s (List.mem_cons_self s []))
      | cons s2 pr2 =>
        cases qr with
        | nil =>
          simp only [joinWith] at heq
          have hc : c ∈ s ++ c :: joinWith c (s2 :: pr2) :=
            List.mem_append_right s (List.mem_cons_self c _)
          rw [heq] at hc
          exact absurd hc (hqfree t (List.mem_cons_self t []))
        | cons t2 qr2 =>
          simp only [joinWith] at heq
          obtain ⟨hst, hrest⟩ := sep_code_inj
            (hpfree s (List.mem_cons_self s _)) (hqfree t (List.mem_cons_self t _)) heq
          have hrec := ih (t2 :: qr2) (by simp) (by simp)
            (fun x hx => hpfree x (List.mem_cons_of_mem s hx))
            (fun x hx => hqfree x (List.mem_cons_of_mem t hx)) hrest
          rw [hst, hrec]

/-! ## Claim theorems -/

/-- Claim C8: the spec requires `repositoryOwner` to fail explicitly (not
panic) on every malformed input, but on the input `"github"` — which passes
the substring domain check yet has fewer than two `/`-delimited segments —
the source expression `url_parts[url_parts.len() - 2]` panics instead of
returning an error.  This theorem evaluates the embedding at that failing
input. -/
theorem owner_panics_on_malformed :
    get_repository_owner (str "github") = .panicked := by
  decide

/-- Claim C10: the recognized-hosting-domain check of `get_repository_owner`
and `get_repository_default_branch` is a pure substring test: each rejects a
URL early — returning an error without consulting the branch cache and
without issuing any API request — exactly when the string `"github"` does
not occur contiguously anywhere in the URL. -/
theorem domain_check_substring :
    ∀ url : RStr,
      ((∃ e, get_repository_owner url = .err e) ↔
        ¬ ∃ pre post, url = pre ++ str "github" ++ post) ∧
      (∀ (api : RStr → RStr → Option RStr) (cache : BranchCache),
        ((∃ e, (get_repository_default_branch api cache url).result = .err e) ∧
          (get_repository_default_branch api cache url).cacheChecked = false ∧
          (get_repository_default_branch api cache url).requests = []) ↔
        ¬ ∃ pre post, url = pre ++ str "github" ++ post) := by
  intro url
  have hbool : containsSub (str "github") url = false ↔
      ¬ ∃ pre post, url = pre ++ str "github" ++ post := by
    rw [← containsSub_iff]
    constructor
    · intro hfalse htrue
      rw [htrue] at hfalse
      cases hfalse
    · intro hnot
      cases hc : containsSub (str "github") url with
      | false => rfl
      | true => exact absurd hc hnot
  constructor
  · rw [owner_err_iff]
    exact hbool
  · intro api cache
    unfold get_repository_default_branch
    cases hc : containsSub (str "github") url with
    | false =>
      simp only [Bool.false_eq_true, if_false]
      simp only [true_and, and_true]
      constructor
      · intro _
        exact hbool.mp hc
      · intro _
        exact ⟨str "Invalid URL", rfl⟩
    | true =>
      have hex : ∃ pre post, url = pre ++ str "github" ++ post :=
        (containsSub_iff (str "github") url).mp hc
      simp only [if_true]
      cases ho : get_repository_owner url with
      | ok owner =>
        obtain ⟨nm, hnm⟩ := get_repository_name_ok url
        rw [hnm]
        cases hfb : findBranch (owner, nm) cache with
        | some branch =>
          refine iff_of_false ?_ (not_not_intro hex)
          rintro ⟨⟨e, he⟩, -, -⟩
          simp [hfb] at he
        | none =>
          cases hapi : api owner nm with
          | some branch =>
            refine iff_of_false ?_ (not_not_intro hex)
            rintro ⟨⟨e, he⟩, -, -⟩
            simp [hfb, hapi] at he
          | none =>
            refine iff_of_false ?_ (not_not_intro hex)
            rintro ⟨-, -, hreq⟩
            simp [hfb, hapi] at hreq
      | err e =>
        have hcontra : containsSub (str "github") url = false :=
          (owner_err_iff url).mp ⟨e, ho⟩
        rw [hc] at hcontra
        cases hcontra
      | panicked =>
        refine iff_of_false ?_ (not_not_intro hex)
        rintro ⟨⟨e, he⟩, -, -⟩
        simp at he

/-- Witness for claim C10: a URL on an unrecognized host is rejected by
`get_repository_owner`, so by the claim the string `"github"` occurs nowhere
in it. -/
theorem domain_check_substring_witness :
    ¬ ∃ pre post,
      str "https://example.com/owner/repo" = pre ++ str "github" ++ post :=
  (domain_check_substring (str "https://example.com/owner/repo")).1.mp
    ⟨str "Invalid URL", by decide⟩

/-- Claim C1, counterexample: the claim that an extraction error for one
`ProgramSource` does not abort extraction of the other `ProgramSource` of
the same pair is false.  When the C side of a pair fails,
`download_program_pair` propagates the error with `?` and the Rust side is
never attempted. -/
theorem pair_error_aborts_other_side :
    Language.Rust ∉
      (download_program_pair (fun _ => Except.error "No such file or directory")).2 := by
  decide

/-- Claim C1, amended: an extraction error for one `ProgramSource` aborts
the remainder of its own pair — when the C side fails, the Rust side of the
same pair is not attempted — but it does not abort the processing of the
other pairs: `download_metadata_file` records the failure and continues,
attempting every pair of the metadata file. -/
theorem pair_error_scope :
    (∀ (dl : Language → Except String Unit) (e : String),
      dl .C = .error e → (download_program_pair dl).2 = [.C]) ∧
    (∀ (dl : ProgramPair → Language → Except String Unit) (pairs : List ProgramPair),
      (download_metadata_file dl pairs).map Prod.fst =
        pairs.map ProgramPair.program_name) := by
  constructor
  · intro dl e hdl
    simp [download_program_pair, hdl]
  · intro dl pairs
    simp [download_metadata_file]

/-- Witness for the amended claim C1 at concrete inputs. -/
theorem pair_error_scope_witness :
    (download_program_pair (fun _ => Except.error "io")).2 = [.C] ∧
    (download_metadata_file (fun _ _ => Except.ok ()) [exProgramPair]).map Prod.fst =
      [exProgramPair].map ProgramPair.program_name :=
  ⟨pair_error_scope.1 (fun _ => Except.error "io") "io" rfl,
   pair_error_scope.2 (fun _ _ => Except.ok ()) [exProgramPair]⟩

/-- Claim C9: in every batch of metadata files, a file that fails to parse
is recorded and skipped without preventing any other file of the batch from
being processed — every parseable file has all of its pairs attempted, every
unparseable file is reported with its error, and the batch record covers
every file. -/
theorem batch_parse_failure_isolated :
    ∀ (parseFile : String → Except String (List ProgramPair))
      (dl : String → ProgramPair → Language → Except String Unit)
      (files : List String) (f : String), f ∈ files →
      ((∀ pairs, parseFile f = .ok pairs →
          (f, .processed (download_metadata_file (dl f) pairs)) ∈
            download_from_metadata_directory parseFile dl files ∧
          (download_metadata_file (dl f) pairs).length = pairs.length) ∧
       (∀ e, parseFile f = .error e →
          (f, .parseFailed e) ∈ download_from_metadata_directory parseFile dl files) ∧
       (download_from_metadata_directory parseFile dl files).length = files.length) := by
  intro parseFile dl files f hf
  refine ⟨?_, ?_, ?_⟩
  · intro pairs hok
    constructor
    · exact List.mem_map.mpr ⟨f, hf, by simp [hok]⟩
    · simp [download_metadata_file]
  · intro e herr
    exact List.mem_map.mpr ⟨f, hf, by simp [herr]⟩
  · simp [download_from_metadata_directory]

/-- Witness for claim C9: a batch of five metadata files, one of which is
unparseable; the four others are fully processed and the failure is
reported. -/
theorem batch_parse_failure_isolated_witness :
    (("m3", FileOutcome.parseFailed "bad json") ∈
      download_from_metadata_directory
        (fun f => if f = "m3" then .error "bad json" else .ok [exProgramPair])
        (fun _ _ _ => .ok ()) ["m1", "m2", "m3", "m4", "m5"]) ∧
    (("m1", FileOutcome.processed
        (download_metadata_file (fun _ _ => .ok ()) [exProgramPair])) ∈
      download_from_metadata_directory
        (fun f => if f = "m3" then .error "bad json" else .ok [exProgramPair])
        (fun _ _ _ => .ok ()) ["m1", "m2", "m3", "m4", "m5"]) ∧
    (download_from_metadata_directory
        (fun f => if f = "m3" then .error "bad json" else .ok [exProgramPair])
        (fun _ _ _ => .ok ()) ["m1", "m2", "m3", "m4", "m5"]).length = 5 := by
  refine ⟨?_, ?_, ?_⟩
  · exact (batch_parse_failure_isolated
      (fun f => if f = "m3" then .error "bad json" else .ok [exProgramPair])
      (fun _ _ _ => .ok ()) ["m1", "m2", "m3", "m4", "m5"] "m3"
      (by decide)).2.1 "bad json" (by decide)
  · exact ((batch_parse_failure_isolated
      (fun f => if f = "m3" then .error "bad json" else .ok [exProgramPair])
      (fun _ _ _ => .ok ()) ["m1", "m2", "m3", "m4", "m5"] "m1"
      (by decide)).1 [exProgramPair] (by decide)).1
  · exact (batch_parse_failure_isolated
      (fun f => if f = "m3" then .error "bad json" else .ok [exProgramPair])
      (fun _ _ _ => .ok ()) ["m1", "m2", "m3", "m4", "m5"] "m1"
      (by decide)).2.2

/-- Claim C4: for every valid Individual or Project metadata document,
normalization produces a result whose pair count equals the number of
entries of the raw `pairs` list, and an empty `pairs` list is valid and
produces an empty result, not an error. -/
theorem normalize_pair_count :
    (∀ (doc : CToRustTranslationSchema) (m : Metadata),
       parse doc = .ok m → m.pairs.length = rawPairsLength doc) ∧
    parse (.individualPairs []) = .ok ⟨[]⟩ ∧
    (∀ info, parse (.projectPairs [] info) = .ok ⟨[]⟩) := by
  refine ⟨?_, rfl, fun info => rfl⟩
  intro doc m h
  cases doc with
  | individualPairs pairs =>
    simp only [parse, validate_metadata, if_true] at h
    cases h
    simp [parse_individual, rawPairsLength]
  | projectPairs pairs info =>
    simp only [parse, validate_metadata, if_true] at h
    cases h
    simp [parse_project, rawPairsLength]

/-- Witness for claim C4 at a concrete one-entry Individual document and the
empty documents. -/
theorem normalize_pair_count_witness :
    (parse_individual [exIndividualPair]).pairs.length =
      rawPairsLength (.individualPairs [exIndividualPair]) ∧
    parse (.individualPairs []) = .ok ⟨[]⟩ ∧
    parse (.projectPairs [] exProjectInformation) = .ok ⟨[]⟩ :=
  ⟨normalize_pair_count.1 (.individualPairs [exIndividualPair])
      (parse_individual [exIndividualPair]) rfl,
   normalize_pair_count.2.1,
   normalize_pair_count.2.2 exProjectInformation⟩

/-- Claim C5: for every Project metadata document, every resulting pair's
translation tools, feature relationship, and both sides' documentation and
repository URLs equal the shared `projectInformation` block's values, while
the pair's name, description, and both sides' source paths come from the
raw entry at the same position. -/
theorem project_broadcast_uniform :
    ∀ (pairs : List ProjectProgramPair)
      (info : ProjectPairsMetadataProjectInformation)
      (i : Nat) (h : i < pairs.length),
      ∃ h2 : i < (parse_project pairs info).pairs.length,
        ((parse_project pairs info).pairs.get ⟨i, h2⟩).translation_tools =
            info.translation_tools ∧
        ((parse_project pairs info).pairs.get ⟨i, h2⟩).feature_relationship =
            map_feature_relationship info.feature_relationship ∧
        ((parse_project pairs info).pairs.get ⟨i, h2⟩).c_program.documentation_url =
            info.c_program.documentation_url ∧
        ((parse_project pairs info).pairs.get ⟨i, h2⟩).rust_program.documentation_url =
            info.rust_program.documentation_url ∧
        ((parse_project pairs info).pairs.get ⟨i, h2⟩).c_program.repository_url =
            info.c_program.repository_url ∧
        ((parse_project pairs info).pairs.get ⟨i, h2⟩).rust_program.repository_url =
            info.rust_program.repository_url ∧
        ((parse_project pairs info).pairs.get ⟨i, h2⟩).program_name =
            (pairs.get ⟨i, h⟩).program_name ∧
        ((parse_project pairs info).pairs.get ⟨i, h2⟩).program_description =
            (pairs.get ⟨i, h⟩).program_description ∧
        ((parse_project pairs info).pairs.get ⟨i, h2⟩).c_program.source_paths =
            (pairs.get ⟨i, h⟩).c_program.source_paths ∧
        ((parse_project pairs info).pairs.get ⟨i, h2⟩).rust_program.source_paths =
            (pairs.get ⟨i, h⟩).rust_program.source_paths := by
  intro pairs info i h
  refine ⟨by simpa [parse_project] using h, ?_⟩
  simp [parse_project, List.get_eq_getElem, List.getElem_map]

/-- Witness for claim C5 at a concrete one-entry Project document. -/
theorem project_broadcast_uniform_witness :
    ∃ h2 : 0 < (parse_project [exProjectEntry] exProjectInformation).pairs.length,
      ((parse_project [exProjectEntry] exProjectInformation).pairs.get
          ⟨0, h2⟩).translation_tools = exProjectInformation.translation_tools ∧
      ((parse_project [exProjectEntry] exProjectInformation).pairs.get
          ⟨0, h2⟩).feature_relationship =
        map_feature_relationship exProjectInformation.feature_relationship ∧
      ((parse_project [exProjectEntry] exProjectInformation).pairs.get
          ⟨0, h2⟩).c_program.documentation_url =
        exProjectInformation.c_program.documentation_url ∧
      ((parse_project [exProjectEntry] exProjectInformation).pairs.get
          ⟨0, h2⟩).rust_program.documentation_url =
        exProjectInformation.rust_program.documentation_url ∧
      ((parse_project [exProjectEntry] exProjectInformation).pairs.get
          ⟨0, h2⟩).c_program.repository_url =
        exProjectInformation.c_program.repository_url ∧
      ((parse_project [exProjectEntry] exProjectInformation).pairs.get
          ⟨0, h2⟩).rust_program.repository_url =
        exProjectInformation.rust_program.repository_url ∧
      ((parse_project [exProjectEntry] exProjectInformation).pairs.get
          ⟨0, h2⟩).program_name =
        ([exProjectEntry].get ⟨0, by decide⟩).program_name ∧
      ((parse_project [exProjectEntry] exProjectInformation).pairs.get
          ⟨0, h2⟩).program_description =
        ([exProjectEntry].get ⟨0, by decide⟩).program_description ∧
      ((parse_project [exProjectEntry] exProjectInformation).pairs.get
          ⟨0, h2⟩).c_program.source_paths =
        ([exProjectEntry].get ⟨0, by decide⟩).c_program.source_paths ∧
      ((parse_project [exProjectEntry] exProjectInformation).pairs.get
          ⟨0, h2⟩).rust_program.source_paths =
        ([exProjectEntry].get ⟨0, by decide⟩).rust_program.source_paths :=
  project_broadcast_uniform [exProjectEntry] exProjectInformation 0 (by decide)

/-- Claim C3: directory extraction copies exactly the contained files whose
extension is in the allowed set `{c, h, rs}` and no others; in particular a
directory containing `a.c`, `b.rs`, `c.txt` and `sub/d.c` yields exactly
`a.c`, `b.rs` and the uniquely-named `sub-d.c`, and never `c.txt`. -/
theorem extraction_extension_filter :
    (∀ (files : List (List RStr)) (p : List RStr),
      (∃ n, (p, n) ∈ copy_files_from_directory files) ↔
        (p ∈ files ∧ ∃ f e, p.getLast? = some f ∧ extensionOf f = some e ∧
          isAllowedExtension e = true)) ∧
    copy_files_from_directory
        [[str "a.c"], [str "b.rs"], [str "c.txt"], [str "sub", str "d.c"]] =
      [([str "a.c"], str "a.c"), ([str "b.rs"], str "b.rs"),
        ([str "sub", str "d.c"], str "sub-d.c")] := by
  constructor
  · intro files p
    constructor
    · rintro ⟨n, hn⟩
      rw [copy_files_from_directory, List.mem_filterMap] at hn
      obtain ⟨q, hq, hgq⟩ := hn
      cases hL : q.getLast? with
      | none => simp [hL] at hgq
      | some f =>
        cases hE : extensionOf f with
        | none => simp [hL, hE] at hgq
        | some e =>
          cases hA : isAllowedExtension e with
          | false => simp [hL, hE, hA] at hgq
          | true =>
            simp only [hL, hE, hA, if_true, Option.some.injEq, Prod.mk.injEq] at hgq
            obtain ⟨rfl, -⟩ := hgq
            exact ⟨hq, f, e, hL, hE, hA⟩
    · rintro ⟨hp, f, e, hL, hE, hA⟩
      refine ⟨destFileName p, ?_⟩
      rw [copy_files_from_directory, List.mem_filterMap]
      exact ⟨p, hp, by simp [hL, hE, hA]⟩
  · decide

/-- Witness for claim C3: the file `sub/d.c` is copied because its
extension is allowed, and `c.txt` is rejected by the filter. -/
theorem extraction_extension_filter_witness :
    (∃ n, ([str "sub", str "d.c"], n) ∈
      copy_files_from_directory [[str "sub", str "d.c"], [str "c.txt"]]) ∧
    ¬ (∃ n, ([str "c.txt"], n) ∈
      copy_files_from_directory [[str "sub", str "d.c"], [str "c.txt"]]) :=
  ⟨(extraction_extension_filter.1 [[str "sub", str "d.c"], [str "c.txt"]]
      [str "sub", str "d.c"]).mpr
    ⟨by decide, str "d.c", str "c", by decide, by decide, by decide⟩,
   fun hex =>
    by
      have h := (extraction_extension_filter.1
        [[str "sub", str "d.c"], [str "c.txt"]] [str "c.txt"]).mp hex
      obtain ⟨-, f, e, hL, hE, hA⟩ := h
      simp only [List.getLast?_singleton, Option.some.injEq] at hL
      rw [← hL] at hE
      have : e = str "txt" := by
        have := hE
        simp [extensionOf, splitOnChar, str] at this
        simpa using this.symm
      rw [this] at hA
      exact absurd hA (by decide)⟩

/-- Claim C7, counterexample: destination naming during directory extraction
is not injective — the joiner `-` may itself occur in a file name, so the
distinct files `a-b.c` and `a/b.c` are both copied and receive the same
destination name `a-b.c`, one copy overwriting the other. -/
theorem dest_name_collision :
    ([str "a-b.c"], str "a-b.c") ∈
      copy_files_from_directory [[str "a-b.c"], [str "a", str "b.c"]] ∧
    ([str "a", str "b.c"], str "a-b.c") ∈
      copy_files_from_directory [[str "a-b.c"], [str "a", str "b.c"]] ∧
    ([str "a-b.c"] : List RStr) ≠ [str "a", str "b.c"] := by
  decide

/-- Claim C7, amended: the destination name is the path relative to the
walked directory with separators replaced by `-`, and this naming is
injective for every two files none of whose path segments contains the
joiner `-` (segments never contain the separator `/`); files whose segments
contain the joiner may collide. -/
theorem dest_name_injective_joiner_free :
    ∀ (p q : List RStr), p ≠ [] → q ≠ [] →
      (∀ s ∈ p, '-' ∉ s ∧ '/' ∉ s) → (∀ s ∈ q, '-' ∉ s ∧ '/' ∉ s) →
      destFileName p = destFileName q → p = q := by
  intro p q hp hq hpfree hqfree heq
  rw [destFileName_eq_joinWith (fun s hs => (hpfree s hs).2),
    destFileName_eq_joinWith (fun s hs => (hqfree s hs).2)] at heq
  exact joinWith_injective p q hp hq
    (fun s hs => (hpfree s hs).1) (fun s hs => (hqfree s hs).1) heq

/-- Witness for the amended claim C7 at concrete joiner-free paths. -/
theorem dest_name_injective_joiner_free_witness :
    ([str "sub", str "d.c"] : List RStr) = [str "sub", str "d.c"] :=
  dest_name_injective_joiner_free [str "sub", str "d.c"] [str "sub", str "d.c"]
    (by decide) (by decide) (by decide) (by decide) (by decide)

/-- Claim C2: acquisition is open-if-present-else-clone.  If the clone
already exists at `repository_clones/<language>/<repositoryName>`, it is
opened and returned unchanged with zero clone operations; only if opening
fails is a single shallow clone of depth 1 performed into that path; and
after any successful acquisition, re-running the acquisition performs zero
clone operations. -/
theorem cache_open_else_clone :
    ∀ (openable : List (List RStr)) (cloneOk : RStr → Bool)
      (lang : Language) (url name : RStr),
      get_repository_name url = .ok name →
      ((clonePath lang name ∈ openable →
          acquireRepository openable cloneOk lang url =
            ⟨.ok (clonePath lang name), openable, []⟩) ∧
       (clonePath lang name ∉ openable →
          (acquireRepository openable cloneOk lang url).clones =
            [⟨url, clonePath lang name, 1⟩]) ∧
       (∀ p, (acquireRepository openable cloneOk lang url).result = .ok p →
          acquireRepository (acquireRepository openable cloneOk lang url).openable
              cloneOk lang url =
            ⟨.ok p, (acquireRepository openable cloneOk lang url).openable, []⟩)) := by
  intro openable cloneOk lang url name hname
  refine ⟨?_, ?_, ?_⟩
  · intro hmem
    simp [acquireRepository, hname, hmem]
  · intro hmem
    by_cases hc : cloneOk url = true
    · simp [acquireRepository, hname, hmem, hc]
    · simp [acquireRepository, hname, hmem, hc]
  · intro p hres
    by_cases hmem : clonePath lang name ∈ openable
    · simp only [acquireRepository, hname, hmem, if_true] at hres ⊢
      have hp : p = clonePath lang name := by
        simpa using hres.symm
      simp [hp, hmem]
    · by_cases hc : cloneOk url = true
      · simp only [acquireRepository, hname, hmem, hc, if_false, if_true] at hres ⊢
        have hp : p = clonePath lang name := by
          simpa using hres.symm
        simp [hp, hmem]
      · simp [acquireRepository, hname, hmem, hc] at hres

/-- Witness for claim C2: acquiring a repository into an empty cache
performs one shallow clone of depth 1, and re-running the acquisition
afterwards performs zero clone operations. -/
theorem cache_open_else_clone_witness :
    ((acquireRepository [] (fun _ => true) .C
        (str "https://github.com/eza-community/eza.git")).clones =
      [⟨str "https://github.com/eza-community/eza.git",
        clonePath .C (str "eza"), 1⟩]) ∧
    (acquireRepository
        (acquireRepository [] (fun _ => true) .C
          (str "https://github.com/eza-community/eza.git")).openable
        (fun _ => true) .C (str "https://github.com/eza-community/eza.git") =
      ⟨.ok (clonePath .C (str "eza")),
        (acquireRepository [] (fun _ => true) .C
          (str "https://github.com/eza-community/eza.git")).openable, []⟩) :=
  ⟨(cache_open_else_clone [] (fun _ => true) .C
      (str "https://github.com/eza-community/eza.git") (str "eza")
      (by decide)).2.1 (by decide),
   (cache_open_else_clone [] (fun _ => true) .C
      (str "https://github.com/eza-community/eza.git") (str "eza")
      (by decide)).2.2 (clonePath .C (str "eza")) (by decide)⟩

/-- Claim C6: resolving the default branch twice for the same repository URL
issues exactly one outbound API request.  On a cache miss the resolver
issues one request for `(owner, name)`, stores the response's branch in the
cache under that key, and returns it; every call finding the key cached is
answered from the cache with the same branch and issues no request. -/
theorem branch_cache_single_request :
    ∀ (api : RStr → RStr → Option RStr) (cache : BranchCache)
      (url owner repository branch : RStr),
      get_repository_owner url = .ok owner →
      get_repository_name url = .ok repository →
      findBranch (owner, repository) cache = none →
      api owner repository = some branch →
      (get_repository_default_branch api cache url =
        ⟨.ok branch, ((owner, repository), branch) :: cache,
          [(owner, repository)], true⟩) ∧
      (∀ cache2 : BranchCache, findBranch (owner, repository) cache2 = some branch →
        get_repository_default_branch api cache2 url =
          ⟨.ok branch, cache2, [], true⟩) := by
  intro api cache url owner repository branch howner hname hmiss hapi
  have hc : containsSub (str "github") url = true := containsSub_of_owner_ok howner
  constructor
  · simp [get_repository_default_branch, hc, howner, hname, hmiss, hapi]
  · intro cache2 hhit
    simp [get_repository_default_branch, hc, howner, hname, hhit]

/-- Witness for claim C6: the first resolution of a concrete GitHub URL
against an empty cache issues one request and caches the branch, and the
second resolution is answered from the cache with no request. -/
theorem branch_cache_single_request_witness :
    (get_repository_default_branch (fun _ _ => some (str "main")) []
        (str "https://github.com/eza-community/eza.git") =
      ⟨.ok (str "main"),
        [((str "eza-community", str "eza"), str "main")],
        [(str "eza-community", str "eza")], true⟩) ∧
    (get_repository_default_branch (fun _ _ => some (str "main"))
        [((str "eza-community", str "eza"), str "main")]
        (str "https://github.com/eza-community/eza.git") =
      ⟨.ok (str "main"), [((str "eza-community", str "eza"), str "main")],
        [], true⟩) :=
  ⟨(branch_cache_single_request (fun _ _ => some (str "main")) []
      (str "https://github.com/eza-community/eza.git")
      (str "eza-community") (str "eza") (str "main")
      (by decide) (by decide) (by decide) rfl).1,
   (branch_cache_single_request (fun _ _ => some (str "main")) []
      (str "https://github.com/eza-community/eza.git")
      (str "eza-community") (str "eza") (str "main")
      (by decide) (by decide) (by decide) rfl).2
    [((str "eza-community", str "eza"), str "main")] (by decide)⟩

end CRust
